import Mathlib

/-! ## Definitions (shallow embedding of the source) -/

/-- Kernel-reducible character-list prefix test. -/
def charsLe : List Char → List Char → Bool
  | [], _ => true
  | _ :: _, [] => false
  | p :: ps, c :: cs => p = c && charsLe ps cs

/-- `s.startsWith(pre)` of JS strings, modelled over the character data so that
concrete instances evaluate inside the kernel. -/
def jsStartsWith (s pre : String) : Bool := charsLe pre.data s.data

/-- A DOM element as seen by `optimizedMergeAttrs`: its attribute list and its
live `value` property (`none` models JS `undefined`). -/
structure JNode where
  attrs : List (String × String)
  valueProp : Option String
deriving DecidableEq

/-- The `opts` argument of `optimizedMergeAttrs`: `opts.exclude || []` as a
list of names, and the truthiness of `opts.isIgnored`. -/
structure MergeOpts where
  exclude : List String
  isIgnored : Bool
deriving DecidableEq

/-- `el.getAttribute(name)`: first binding of `name`, `none` for JS `null`. -/
def getAttribute : List (String × String) → String → Option String
  | [], _ => none
  | (k, v) :: rest, name => if k = name then some v else getAttribute rest name

/-- `el.setAttribute(name, v)`: overwrite in place, else append. -/
def setAttribute : List (String × String) → String → String → List (String × String)
  | [], name, v => [(name, v)]
  | (k, w) :: rest, name, v =>
      if k = name then (k, v) :: rest else (k, w) :: setAttribute rest name v

/-- `el.removeAttribute(name)`. -/
def removeAttribute : List (String × String) → String → List (String × String)
  | [], _ => []
  | (k, w) :: rest, name =>
      if k = name then removeAttribute rest name else (k, w) :: removeAttribute rest name

/-- Modelled from the spec: first sentinel reference-marker name, imported in
the source from `./constants` (a file not in scope) as `PHX_REF`. Its exact
string content is irrelevant to every claim below. -/
def PHX_REF : String := "data-phx-ref"

/-- Modelled from the spec: second sentinel reference-marker name, imported in
the source from `./constants` (not in scope) as `PHX_REF_SRC`. -/
def PHX_REF_SRC : String := "data-phx-ref-src"

/-- First pass of `optimizedMergeAttrs` (source lines 55-69): walk the source
attribute list and collect `attributesToSet`.  The JS guard
`(!isIgnored || (isIgnored && name.startsWith("data-")))` is transcribed
literally. -/
def collectSets (target source : JNode) (opts : MergeOpts) :
    List (String × String) → List (String × String)
  | [] => []
  | (name, v) :: rest =>
    if name ∈ opts.exclude then
      if name = "value" ∧ target.valueProp = source.valueProp then
        (name, v) :: collectSets target source opts rest
      else
        collectSets target source opts rest
    else
      if getAttribute target.attrs name ≠ some v ∧
          (opts.isIgnored = false ∨ (opts.isIgnored = true ∧ jsStartsWith name "data-" = true)) then
        (name, v) :: collectSets target source opts rest
      else
        collectSets target source opts rest

/-- Second pass of `optimizedMergeAttrs` (source lines 71-84): walk the target
attribute list and collect `attributesToRemove`.  `source.hasAttribute(name)`
is `getAttribute source.attrs name ≠ none`. -/
def collectRemoves (source : JNode) (opts : MergeOpts) :
    List (String × String) → List String
  | [] => []
  | (name, _) :: rest =>
    if opts.isIgnored = true then
      if jsStartsWith name "data-" = true ∧ getAttribute source.attrs name = none ∧
          ¬ (name = PHX_REF ∨ name = PHX_REF_SRC) then
        name :: collectRemoves source opts rest
      else
        collectRemoves source opts rest
    else
      if getAttribute source.attrs name = none then
        name :: collectRemoves source opts rest
      else
        collectRemoves source opts rest

/-- `attributesToSet.forEach(([name, value]) => target.setAttribute(name, value))`. -/
def applySets : List (String × String) → List (String × String) → List (String × String)
  | attrs, [] => attrs
  | attrs, (name, v) :: rest => applySets (setAttribute attrs name v) rest

/-- `attributesToRemove.forEach(name => target.removeAttribute(name))`. -/
def applyRemoves : List (String × String) → List String → List (String × String)
  | attrs, [] => attrs
  | attrs, name :: rest => applyRemoves (removeAttribute attrs name) rest

/-- `optimizedMergeAttrs(target, source, opts)` (source lines 47-89).  Returns
the mutated target together with the two batched operation lists
(`attributesToSet`, `attributesToRemove`), which the write-count claims are
about. -/
def optimizedMergeAttrs (target source : JNode) (opts : MergeOpts) :
    JNode × List (String × String) × List String :=
  let attributesToSet := collectSets target source opts source.attrs
  let attributesToRemove := collectRemoves source opts target.attrs
  (⟨applyRemoves (applySets target.attrs attributesToSet) attributesToRemove,
    target.valueProp⟩,
   attributesToSet, attributesToRemove)

/-- The condition under which the first pass pushes a pair onto
`attributesToSet` (a direct reading of the branch structure of source lines
61-68). -/
def setCond (target source : JNode) (opts : MergeOpts) (name v : String) : Prop :=
  if name ∈ opts.exclude then
    name = "value" ∧ target.valueProp = source.valueProp
  else
    getAttribute target.attrs name ≠ some v ∧
      (opts.isIgnored = false ∨ (opts.isIgnored = true ∧ jsStartsWith name "data-" = true))

/-- The condition under which the second pass pushes a name onto
`attributesToRemove` (source lines 75-83). -/
def removeCond (source : JNode) (opts : MergeOpts) (name : String) : Prop :=
  if opts.isIgnored = true then
    jsStartsWith name "data-" = true ∧ getAttribute source.attrs name = none ∧
      ¬ (name = PHX_REF ∨ name = PHX_REF_SRC)
  else
    getAttribute source.attrs name = none

instance (t s : JNode) (o : MergeOpts) (n v : String) : Decidable (setCond t s o n v) := by
  unfold setCond; infer_instance

instance (s : JNode) (o : MergeOpts) (n : String) : Decidable (removeCond s o n) := by
  unfold removeCond; infer_instance

/-- `CACHE_TTL = 100 // Cache for 100ms` (source line 10). -/
def CACHE_TTL : Nat := 100

/-- One entry of `queryCache`: the snapshot `results` (nodes as tokens) and the
`timestamp` recorded at insertion. -/
structure CacheEntry where
  results : List Nat
  timestamp : Nat
deriving DecidableEq

/-- The scope node of a lookup, as read by the key derivation on source line
17: `node.id || node.tagName + (node.className || '')` (an element with no id
has `id = ""`, which is falsy). -/
structure DOMNode where
  id : String
  tagName : String
  className : String

/-- `queryCache.get(k)` on the insertion-ordered entry list. -/
def mapGet : List (String × CacheEntry) → String → Option CacheEntry
  | [], _ => none
  | (k, v) :: rest, key => if k = key then some v else mapGet rest key

/-- `queryCache.set(k, v)`: replace in place, else append (JS `Map` keeps
insertion order). -/
def mapSet : List (String × CacheEntry) → String → CacheEntry → List (String × CacheEntry)
  | [], key, v => [(key, v)]
  | (k, w) :: rest, key, v =>
      if k = key then (k, v) :: rest else (k, w) :: mapSet rest key v

/-- The eviction loop of source lines 36-40: delete every entry with
`now - value.timestamp > CACHE_TTL`. -/
def sweepExpired (now : Nat) : List (String × CacheEntry) → List (String × CacheEntry)
  | [] => []
  | (k, v) :: rest =>
      if now - v.timestamp > CACHE_TTL then sweepExpired now rest
      else (k, v) :: sweepExpired now rest

/-- Source lines 16-18: `` const cacheKey = `${nodeId}:${query}` ``. -/
def cacheKeyOf (node : DOMNode) (query : String) : String :=
  (if node.id ≠ "" then node.id else node.tagName ++ node.className) ++ ":" ++ query

/-- The miss path of `optimizedDOMAll` (source lines 26-43): run the query
(`liveResults` stands for `Array.from(node.querySelectorAll(query))` against
the live tree), store a fresh entry, and sweep iff the table has grown past
100 entries. -/
def domAllMiss (cache : List (String × CacheEntry)) (cacheKey : String)
    (liveResults : List Nat) (now : Nat) :
    List Nat × List (String × CacheEntry) × Bool :=
  let cache1 := mapSet cache cacheKey ⟨liveResults, now⟩
  let cache2 := if cache1.length > 100 then sweepExpired now cache1 else cache1
  (liveResults, cache2, true)

/-- `optimizedDOMAll(node, query)` (source lines 13-44), without the optional
`callback` argument.  The third component records whether the live tree was
re-queried (`true` on the miss path). -/
def optimizedDOMAll (cache : List (String × CacheEntry)) (node : DOMNode) (query : String)
    (liveResults : List Nat) (now : Nat) :
    List Nat × List (String × CacheEntry) × Bool :=
  let cacheKey := cacheKeyOf node query
  match mapGet cache cacheKey with
  | some cached =>
      if now - cached.timestamp < CACHE_TTL then (cached.results, cache, false)
      else domAllMiss cache cacheKey liveResults now
  | none => domAllMiss cache cacheKey liveResults now

/-- The 103-entry cache used to drive the sweep in the claim C8
counterexample: one entry aged exactly `CACHE_TTL`, one entry older, and 101
fresh entries. -/
def boundaryCache : List (String × CacheEntry) :=
  ("old", ⟨[], 900⟩) :: ("dead", ⟨[], 800⟩) ::
    (List.range 101).map (fun i => (Nat.repr i, ⟨[], 999⟩))

/-- The `ObjectPool` class: construction function, optional reset function and
the backing `pool` array. -/
structure ObjectPool (α : Type) where
  createFn : Unit → α
  resetFn : Option (α → α)
  pool : List α

/-- `release(obj)`: apply `resetFn` when present, then `this.pool.push(obj)`
(push appends at the end). -/
def ObjectPool.applyReset {α : Type} (p : ObjectPool α) (obj : α) : α :=
  match p.resetFn with
  | some f => f obj
  | none => obj

def ObjectPool.release {α : Type} (p : ObjectPool α) (obj : α) : ObjectPool α :=
  ⟨p.createFn, p.resetFn, p.pool ++ [p.applyReset obj]⟩

/-- `get()`: `pop()` the last element when `pool.length > 0`, else
`createFn()`.  A nonempty pool is exactly one with a last element, so the
source's length guard is the `some` arm of `getLast?`. -/
def ObjectPool.get {α : Type} (p : ObjectPool α) : α × ObjectPool α :=
  match p.pool.getLast? with
  | some x => (x, ⟨p.createFn, p.resetFn, p.pool.dropLast⟩)
  | none => (p.createFn (), p)

/-- A JS value as far as truthiness and identity keys are concerned. -/
inductive JSVal where
  | vnull
  | vstr (s : String)
  | vbool (b : Bool)
deriving DecidableEq

/-- JS truthiness of the modelled values. -/
def JSVal.truthy : JSVal → Bool
  | vnull => false
  | vstr s => s != ""
  | vbool b => b

/-- Truthiness of a possibly-`undefined` value. -/
def jsTruthy : Option JSVal → Bool
  | none => false
  | some v => v.truthy

/-- The `optimizedPrivateStore` WeakMap: elements are identified by `Nat`
tokens, each mapped to its private key-value object. -/
abbrev PrivStore := List (Nat × List (String × JSVal))

def lookupObj : List (Nat × List (String × JSVal)) → Nat → Option (List (String × JSVal))
  | [], _ => none
  | (k, v) :: rest, el => if k = el then some v else lookupObj rest el

def lookupKey : List (String × JSVal) → String → Option JSVal
  | [], _ => none
  | (k, v) :: rest, key => if k = key then some v else lookupKey rest key

/-- `optimizedGetPrivate(el, key)` (source lines 176-179):
`privateObj ? privateObj[key] : undefined`. -/
def optimizedGetPrivate (store : PrivStore) (el : Nat) (key : String) : Option JSVal :=
  match lookupObj store el with
  | some obj => lookupKey obj key
  | none => none

/-- An element as seen by `getNodeKey`: its store token, its `id` property
(`""` when the id attribute is absent), and `getAttribute("phx-magic-id")`. -/
structure MNode where
  ref : Nat
  id : String
  magicId : Option String

/-- `isPhxDestroyed` (source lines 204-206):
`node.id && optimizedGetPrivate(node, "destroyed")`, as a truthiness test. -/
def isPhxDestroyed (store : PrivStore) (node : MNode) : Bool :=
  (node.id != "") && jsTruthy (optimizedGetPrivate store node.ref "destroyed")

/-- `getNodeKey` (source lines 208-212).  `node.getAttribute` is always
defined on the elements modelled here, so the JS guard
`node.getAttribute && node.getAttribute("phx-magic-id")` is the attribute
value itself (`vnull` when absent). -/
def getNodeKey (store : PrivStore) (isJoinPatch : Bool) (node : MNode) : JSVal :=
  if isPhxDestroyed store node then JSVal.vnull
  else if isJoinPatch then JSVal.vstr node.id
  else if node.id != "" then JSVal.vstr node.id
  else
    match node.magicId with
    | some m => JSVal.vstr m
    | none => JSVal.vnull

/-- Index of the first occurrence (`length` when absent); helper for the JS
`Array.prototype.indexOf`, which returns `-1` when absent. -/
def idxOf : List Nat → Nat → Nat
  | [], _ => 0
  | y :: rest, x => if y = x then 0 else idxOf rest x + 1

/-- `Array.prototype.indexOf.call(children, item)`. -/
def jsIndexOf (l : List Nat) (x : Nat) : Int :=
  if x ∈ l then (idxOf l x : Int) else -1

/-- Detaching a node from its parent (the implicit first half of a DOM
`insertBefore`/`appendChild` move). -/
def removeItem : List Nat → Nat → List Nat
  | [], _ => []
  | y :: rest, x => if y = x then removeItem rest x else y :: removeItem rest x

/-- Insert `x` immediately before the first occurrence of `ref` (the second
half of `container.insertBefore(x, ref)`; `ref` is a present child at every
use site below). -/
def insertBeforeRef : List Nat → Nat → Nat → List Nat
  | [], x, _ => [x]
  | y :: rest, x, ref => if y = ref then x :: y :: rest else y :: insertBeforeRef rest x ref

/-- `container.insertBefore(item, ref)`: detach `item`, then insert before
`ref`; a null `ref` appends. -/
def domInsertBefore (children : List Nat) (item : Nat) (ref : Option Nat) : List Nat :=
  match ref with
  | none => removeItem children item ++ [item]
  | some r => insertBeforeRef (removeItem children item) item r

/-- `container.appendChild(item)` on a current child: detach, then append. -/
def domAppendChild (children : List Nat) (item : Nat) : List Nat :=
  removeItem children item ++ [item]

/-- `sibling.nextElementSibling` read off the child list (`none` for null). -/
def nextElementSibling : List Nat → Nat → Option Nat
  | [], _ => none
  | y :: rest, x => if y = x then rest.head? else nextElementSibling rest x

/-- Insertion at a position, used to state the reorder postcondition. -/
def listInsertAt : Nat → Nat → List Nat → List Nat
  | 0, x, l => x :: l
  | _ + 1, x, [] => [x]
  | n + 1, x, y :: rest => y :: listInsertAt n x rest

/-- `optimizedStreamReorder(container, item, streamAt)` (source lines
121-147).  Returns the new child list and whether a structural mutation was
performed.  The `children.get?` fallback arm is unreachable: in the branch
that reads `children[targetIndex]` the index is in bounds. -/
def optimizedStreamReorder (children : List Nat) (item : Nat) (streamAt : Int)
    (hasParent : Bool) : List Nat × Bool :=
  if hasParent = false then (children, false)
  else if streamAt = 0 then
    if children.head? ≠ some item then (domInsertBefore children item children.head?, true)
    else (children, false)
  else if streamAt > 0 then
    let targetIndex : Int := min streamAt ((children.length : Int) - 1)
    let currentIndex : Int := jsIndexOf children item
    if currentIndex ≠ targetIndex then
      if targetIndex ≥ (children.length : Int) - 1 then (domAppendChild children item, true)
      else
        match children.get? targetIndex.toNat with
        | some sibling =>
            if currentIndex > targetIndex then
              (domInsertBefore children item (some sibling), true)
            else
              (domInsertBefore children item (nextElementSibling children sibling), true)
        | none => (children, false)
    else (children, false)
  else (children, false)

/-! ## Theorems -/

example :
    (optimizedMergeAttrs ⟨[("class", "a")], none⟩ ⟨[("class", "b")], none⟩
        ⟨[], false⟩).1.attrs = [("class", "b")] := by decide

example :
    (optimizedMergeAttrs ⟨[("class", "a")], none⟩ ⟨[("class", "b")], none⟩
        ⟨["class"], false⟩).1.attrs = [("class", "a")] := by decide

example :
    (optimizedMergeAttrs ⟨[("class", "a")], none⟩ ⟨[("class", "b")], none⟩
        ⟨[], true⟩).1.attrs = [("class", "a")] := by decide

theorem getAttribute_setAttribute (attrs : List (String × String)) (name v m : String) :
    getAttribute (setAttribute attrs name v) m =
      if m = name then some v else getAttribute attrs m := by
  induction attrs with
  | nil =>
      simp only [setAttribute, getAttribute]
      by_cases h : m = name
      · simp [h]
      · simp [h, Ne.symm h]
  | cons hd tl ih =>
      obtain ⟨k, w⟩ := hd
      by_cases hk : k = name
      · subst hk
        simp only [setAttribute, if_pos rfl, getAttribute]
        by_cases hm : m = k
        · simp [hm]
        · simp [hm, Ne.symm hm]
      · simp only [setAttribute, if_neg hk, getAttribute]
        by_cases hm : k = m
        · subst hm
          simp [hk]
        · simp [hm, ih]

theorem getAttribute_removeAttribute (attrs : List (String × String)) (name m : String) :
    getAttribute (removeAttribute attrs name) m =
      if m = name then none else getAttribute attrs m := by
  induction attrs with
  | nil => simp [removeAttribute, getAttribute]
  | cons hd tl ih =>
      obtain ⟨k, w⟩ := hd
      by_cases hk : k = name
      · subst hk
        rw [removeAttribute, if_pos rfl, ih]
        by_cases hm : m = k
        · simp [hm]
        · simp [getAttribute, hm, Ne.symm hm]
      · rw [removeAttribute, if_neg hk]
        by_cases hm : k = m
        · subst hm
          simp [getAttribute, hk]
        · simp [getAttribute, hm, ih]

theorem getAttribute_eq_none_iff (attrs : List (String × String)) (m : String) :
    getAttribute attrs m = none ↔ m ∉ attrs.map Prod.fst := by
  induction attrs with
  | nil => simp [getAttribute]
  | cons hd tl ih =>
      obtain ⟨k, w⟩ := hd
      by_cases hk : k = m
      · subst hk; simp [getAttribute]
      · simp [getAttribute, hk, ih, Ne.symm hk]

theorem getAttribute_some_mem (attrs : List (String × String)) (m v : String)
    (h : getAttribute attrs m = some v) : (m, v) ∈ attrs := by
  induction attrs with
  | nil => simp [getAttribute] at h
  | cons hd tl ih =>
      obtain ⟨k, w⟩ := hd
      by_cases hk : k = m
      · subst hk
        simp [getAttribute] at h
        simp [h]
      · simp only [getAttribute, if_neg hk] at h
        exact List.mem_cons_of_mem _ (ih h)

theorem getAttribute_eq_of_mem_nodup (attrs : List (String × String)) (m v : String)
    (hnd : (attrs.map Prod.fst).Nodup) (h : (m, v) ∈ attrs) :
    getAttribute attrs m = some v := by
  induction attrs with
  | nil => simp at h
  | cons hd tl ih =>
      obtain ⟨k, w⟩ := hd
      rw [List.map_cons, List.nodup_cons] at hnd
      rcases List.mem_cons.1 h with h1 | h1
      · rw [Prod.mk.injEq] at h1
        obtain ⟨h1a, h1b⟩ := h1
        simp [getAttribute, h1a, h1b]
      · have hk : ¬k = m := by
          intro hkm
          apply hnd.1
          subst hkm
          exact List.mem_map.2 ⟨(k, v), h1, rfl⟩
        simp only [getAttribute, if_neg hk]
        exact ih hnd.2 h1

theorem getAttribute_applySets_of_none (attrs sets : List (String × String)) (m : String)
    (h : getAttribute sets m = none) :
    getAttribute (applySets attrs sets) m = getAttribute attrs m := by
  induction sets generalizing attrs with
  | nil => simp [applySets]
  | cons hd rest ih =>
      obtain ⟨n, v⟩ := hd
      by_cases hn : n = m
      · subst hn; simp [getAttribute] at h
      · simp only [getAttribute, if_neg hn] at h
        rw [applySets, ih _ h, getAttribute_setAttribute]
        simp [Ne.symm hn]

theorem getAttribute_applySets_of_some (attrs sets : List (String × String)) (m v : String)
    (hnd : (sets.map Prod.fst).Nodup) (h : getAttribute sets m = some v) :
    getAttribute (applySets attrs sets) m = some v := by
  induction sets generalizing attrs with
  | nil => simp [getAttribute] at h
  | cons hd rest ih =>
      obtain ⟨n, w⟩ := hd
      rw [List.map_cons, List.nodup_cons] at hnd
      by_cases hn : n = m
      · subst hn
        simp [getAttribute] at h
        subst h
        have hrest : getAttribute rest n = none :=
          (getAttribute_eq_none_iff rest n).2 hnd.1
        rw [applySets, getAttribute_applySets_of_none _ _ _ hrest,
          getAttribute_setAttribute]
        simp
      · simp only [getAttribute, if_neg hn] at h
        rw [applySets]
        exact ih _ hnd.2 h

theorem getAttribute_applyRemoves (attrs : List (String × String)) (rems : List String)
    (m : String) :
    getAttribute (applyRemoves attrs rems) m =
      if m ∈ rems then none else getAttribute attrs m := by
  induction rems generalizing attrs with
  | nil => simp [applyRemoves]
  | cons r rest ih =>
      rw [applyRemoves, ih]
      by_cases hm : m ∈ rest
      · simp [hm]
      · by_cases hr : m = r
        · subst hr; simp [hm, getAttribute_removeAttribute]
        · simp [hm, hr, getAttribute_removeAttribute]

theorem collectSets_cons (t s : JNode) (o : MergeOpts) (n v : String)
    (rest : List (String × String)) :
    collectSets t s o ((n, v) :: rest) =
      if setCond t s o n v then (n, v) :: collectSets t s o rest
      else collectSets t s o rest := by
  by_cases h1 : n ∈ o.exclude
  · simp only [collectSets, setCond, if_pos h1]
  · simp only [collectSets, setCond, if_neg h1]

theorem collectRemoves_cons (s : JNode) (o : MergeOpts) (n v : String)
    (rest : List (String × String)) :
    collectRemoves s o ((n, v) :: rest) =
      if removeCond s o n then n :: collectRemoves s o rest
      else collectRemoves s o rest := by
  by_cases h1 : o.isIgnored = true
  · simp only [collectRemoves, removeCond, if_pos h1]
  · simp only [collectRemoves, removeCond, if_neg h1]

theorem getAttribute_collectSets_none (t s : JNode) (o : MergeOpts)
    (l : List (String × String)) (m : String) (h : getAttribute l m = none) :
    getAttribute (collectSets t s o l) m = none := by
  induction l with
  | nil => simp [collectSets, getAttribute]
  | cons hd rest ih =>
      obtain ⟨n, v⟩ := hd
      by_cases hn : n = m
      · subst hn; simp [getAttribute] at h
      · simp only [getAttribute, if_neg hn] at h
        rw [collectSets_cons]
        by_cases hc : setCond t s o n v
        · simp only [if_pos hc, getAttribute, if_neg hn]
          exact ih h
        · simp only [if_neg hc]
          exact ih h

theorem getAttribute_collectSets (t s : JNode) (o : MergeOpts)
    (l : List (String × String)) (m v : String)
    (hnd : (l.map Prod.fst).Nodup) (h : getAttribute l m = some v) :
    getAttribute (collectSets t s o l) m =
      if setCond t s o m v then some v else none := by
  induction l with
  | nil => simp [getAttribute] at h
  | cons hd rest ih =>
      obtain ⟨n, w⟩ := hd
      rw [List.map_cons, List.nodup_cons] at hnd
      by_cases hn : n = m
      · subst hn
        simp [getAttribute] at h
        subst h
        have hrest : getAttribute rest n = none :=
          (getAttribute_eq_none_iff rest n).2 hnd.1
        rw [collectSets_cons]
        by_cases hc : setCond t s o n w
        · simp [if_pos hc, getAttribute, hc]
        · simp [if_neg hc, getAttribute_collectSets_none t s o rest n hrest, hc]
      · simp only [getAttribute, if_neg hn] at h
        rw [collectSets_cons]
        by_cases hc : setCond t s o n w
        · simp only [if_pos hc, getAttribute, if_neg hn]
          exact ih hnd.2 h
        · simp only [if_neg hc]
          exact ih hnd.2 h

theorem mem_collectSets (t s : JNode) (o : MergeOpts) (l : List (String × String))
    (m v : String) :
    (m, v) ∈ collectSets t s o l ↔ (m, v) ∈ l ∧ setCond t s o m v := by
  induction l with
  | nil => simp [collectSets]
  | cons hd rest ih =>
      obtain ⟨n, w⟩ := hd
      rw [collectSets_cons]
      by_cases hc : setCond t s o n w
      · rw [if_pos hc]
        constructor
        · intro hmem
          rcases List.mem_cons.1 hmem with h1 | h1
          · rw [Prod.mk.injEq] at h1
            obtain ⟨ha, hb⟩ := h1
            subst ha; subst hb
            exact ⟨List.mem_cons_self _ _, hc⟩
          · obtain ⟨h2, h3⟩ := ih.1 h1
            exact ⟨List.mem_cons_of_mem _ h2, h3⟩
        · rintro ⟨hmem, hsc⟩
          rcases List.mem_cons.1 hmem with h1 | h1
          · rw [h1]
            exact List.mem_cons_self _ _
          · exact List.mem_cons_of_mem _ (ih.2 ⟨h1, hsc⟩)
      · rw [if_neg hc, ih]
        constructor
        · rintro ⟨h1, h2⟩
          exact ⟨List.mem_cons_of_mem _ h1, h2⟩
        · rintro ⟨h1, h2⟩
          rcases List.mem_cons.1 h1 with h3 | h3
          · exfalso
            rw [Prod.mk.injEq] at h3
            obtain ⟨ha, hb⟩ := h3
            subst ha; subst hb
            exact hc h2
          · exact ⟨h3, h2⟩

theorem collectSets_keys_nodup (t s : JNode) (o : MergeOpts)
    (l : List (String × String)) (hnd : (l.map Prod.fst).Nodup) :
    ((collectSets t s o l).map Prod.fst).Nodup := by
  induction l with
  | nil => simp [collectSets]
  | cons hd rest ih =>
      obtain ⟨n, w⟩ := hd
      rw [List.map_cons, List.nodup_cons] at hnd
      rw [collectSets_cons]
      by_cases hc : setCond t s o n w
      · rw [if_pos hc, List.map_cons, List.nodup_cons]
        refine ⟨?_, ih hnd.2⟩
        intro hmem
        rcases List.mem_map.1 hmem with ⟨⟨a, b⟩, hab, hfst⟩
        obtain ⟨h1, _⟩ := (mem_collectSets t s o rest a b).1 hab
        apply hnd.1
        exact List.mem_map.2 ⟨(a, b), h1, hfst⟩
      · rw [if_neg hc]
        exact ih hnd.2

theorem mem_collectRemoves (s : JNode) (o : MergeOpts) (l : List (String × String))
    (m : String) :
    m ∈ collectRemoves s o l ↔ m ∈ l.map Prod.fst ∧ removeCond s o m := by
  induction l with
  | nil => simp [collectRemoves]
  | cons hd rest ih =>
      obtain ⟨n, w⟩ := hd
      rw [collectRemoves_cons, List.map_cons]
      by_cases hc : removeCond s o n
      · rw [if_pos hc]
        constructor
        · intro hmem
          rcases List.mem_cons.1 hmem with h1 | h1
          · subst h1
            exact ⟨List.mem_cons_self _ _, hc⟩
          · obtain ⟨h2, h3⟩ := ih.1 h1
            exact ⟨List.mem_cons_of_mem _ h2, h3⟩
        · rintro ⟨hmem, hrc⟩
          rcases List.mem_cons.1 hmem with h1 | h1
          · subst h1
            exact List.mem_cons_self _ _
          · exact List.mem_cons_of_mem _ (ih.2 ⟨h1, hrc⟩)
      · rw [if_neg hc, ih]
        constructor
        · rintro ⟨h1, h2⟩
          exact ⟨List.mem_cons_of_mem _ h1, h2⟩
        · rintro ⟨h1, h2⟩
          rcases List.mem_cons.1 h1 with h3 | h3
          · exfalso
            subst h3
            exact hc h2
          · exact ⟨h3, h2⟩

theorem merge_lookup_of_src_none (target source : JNode) (opts : MergeOpts) (name : String)
    (hsrc : getAttribute source.attrs name = none) :
    getAttribute (optimizedMergeAttrs target source opts).1.attrs name =
      if opts.isIgnored = false ∨
          (jsStartsWith name "data-" = true ∧ ¬ (name = PHX_REF ∨ name = PHX_REF_SRC)) then
        none
      else getAttribute target.attrs name := by
  show getAttribute
      (applyRemoves (applySets target.attrs (collectSets target source opts source.attrs))
        (collectRemoves source opts target.attrs)) name = _
  rw [getAttribute_applyRemoves,
    getAttribute_applySets_of_none _ _ _ (getAttribute_collectSets_none target source opts _ _ hsrc)]
  by_cases hmem : name ∈ collectRemoves source opts target.attrs
  · rw [if_pos hmem]
    obtain ⟨hk, hrc⟩ := (mem_collectRemoves _ _ _ _).1 hmem
    unfold removeCond at hrc
    by_cases hign : opts.isIgnored = true
    · rw [if_pos hign] at hrc
      rw [if_pos (Or.inr ⟨hrc.1, hrc.2.2⟩)]
    · have hfalse : opts.isIgnored = false := by
        revert hign; cases opts.isIgnored <;> simp
      rw [if_pos (Or.inl hfalse)]
  · rw [if_neg hmem]
    by_cases hcond : opts.isIgnored = false ∨
        (jsStartsWith name "data-" = true ∧ ¬ (name = PHX_REF ∨ name = PHX_REF_SRC))
    · rw [if_pos hcond]
      rcases h0 : getAttribute target.attrs name with _ | w
      · rfl
      · exfalso
        apply hmem
        apply (mem_collectRemoves _ _ _ _).2
        have hne : getAttribute target.attrs name ≠ none := by rw [h0]; simp
        refine ⟨?_, ?_⟩
        · by_contra hkk
          exact hne ((getAttribute_eq_none_iff _ _).2 hkk)
        · unfold removeCond
          rcases hcond with hc | hc
          · rw [if_neg (by rw [hc]; simp)]
            exact hsrc
          · by_cases hign : opts.isIgnored = true
            · rw [if_pos hign]
              exact ⟨hc.1, hsrc, hc.2⟩
            · rw [if_neg hign]
              exact hsrc
    · rw [if_neg hcond]

theorem merge_lookup_of_src_some (target source : JNode) (opts : MergeOpts)
    (hs : (source.attrs.map Prod.fst).Nodup) (name v : String)
    (hsrc : getAttribute source.attrs name = some v) :
    getAttribute (optimizedMergeAttrs target source opts).1.attrs name =
      if name ∈ opts.exclude then
        if name = "value" ∧ target.valueProp = source.valueProp then some v
        else getAttribute target.attrs name
      else if opts.isIgnored = false ∨ (opts.isIgnored = true ∧ jsStartsWith name "data-" = true) then
        some v
      else getAttribute target.attrs name := by
  show getAttribute
      (applyRemoves (applySets target.attrs (collectSets target source opts source.attrs))
        (collectRemoves source opts target.attrs)) name = _
  have hnorem : name ∉ collectRemoves source opts target.attrs := by
    intro hmem
    obtain ⟨hk, hrc⟩ := (mem_collectRemoves _ _ _ _).1 hmem
    unfold removeCond at hrc
    by_cases hign : opts.isIgnored = true
    · rw [if_pos hign] at hrc
      rw [hrc.2.1] at hsrc
      cases hsrc
    · rw [if_neg hign] at hrc
      rw [hrc] at hsrc
      cases hsrc
  rw [getAttribute_applyRemoves, if_neg hnorem]
  have hset := getAttribute_collectSets target source opts source.attrs name v hs hsrc
  by_cases hsc : setCond target source opts name v
  · rw [if_pos hsc] at hset
    rw [getAttribute_applySets_of_some _ _ _ _ (collectSets_keys_nodup target source opts _ hs) hset]
    unfold setCond at hsc
    by_cases hexc : name ∈ opts.exclude
    · rw [if_pos hexc] at hsc
      rw [if_pos hexc, if_pos hsc]
    · rw [if_neg hexc] at hsc
      rw [if_neg hexc, if_pos hsc.2]
  · rw [if_neg hsc] at hset
    rw [getAttribute_applySets_of_none _ _ _ hset]
    unfold setCond at hsc
    by_cases hexc : name ∈ opts.exclude
    · rw [if_pos hexc] at hsc
      rw [if_pos hexc, if_neg hsc]
    · rw [if_neg hexc] at hsc
      by_cases hB : opts.isIgnored = false ∨ (opts.isIgnored = true ∧ jsStartsWith name "data-" = true)
      · have hA : getAttribute target.attrs name = some v := by
          by_contra hA
          exact hsc ⟨hA, hB⟩
        rw [if_neg hexc, if_pos hB]
        exact hA
      · rw [if_neg hexc, if_neg hB]

theorem mem_keys_setAttribute (attrs : List (String × String)) (n v m : String)
    (h : m ∈ (setAttribute attrs n v).map Prod.fst) :
    m ∈ attrs.map Prod.fst ∨ m = n := by
  induction attrs with
  | nil =>
      simp [setAttribute] at h
      exact Or.inr h
  | cons hd tl ih =>
      obtain ⟨k, w⟩ := hd
      by_cases hk : k = n
      · subst hk
        rw [setAttribute, if_pos rfl] at h
        simp only [List.map_cons] at h ⊢
        exact Or.inl h
      · simp only [setAttribute, if_neg hk, List.map_cons, List.mem_cons] at h ⊢
        rcases h with h | h
        · exact Or.inl (Or.inl h)
        · rcases ih h with h1 | h1
          · exact Or.inl (Or.inr h1)
          · exact Or.inr h1

theorem nodup_keys_setAttribute (attrs : List (String × String)) (n v : String)
    (hnd : (attrs.map Prod.fst).Nodup) :
    ((setAttribute attrs n v).map Prod.fst).Nodup := by
  induction attrs with
  | nil => simp [setAttribute]
  | cons hd tl ih =>
      obtain ⟨k, w⟩ := hd
      rw [List.map_cons, List.nodup_cons] at hnd
      by_cases hk : k = n
      · subst hk
        rw [setAttribute, if_pos rfl, List.map_cons, List.nodup_cons]
        exact hnd
      · simp only [setAttribute, if_neg hk, List.map_cons, List.nodup_cons]
        refine ⟨?_, ih hnd.2⟩
        intro hmem
        rcases mem_keys_setAttribute tl n v k hmem with h1 | h1
        · exact hnd.1 h1
        · exact hk h1

theorem mem_keys_removeAttribute (attrs : List (String × String)) (n m : String)
    (h : m ∈ (removeAttribute attrs n).map Prod.fst) :
    m ∈ attrs.map Prod.fst := by
  induction attrs with
  | nil => simp [removeAttribute] at h
  | cons hd tl ih =>
      obtain ⟨k, w⟩ := hd
      by_cases hk : k = n
      · subst hk
        rw [removeAttribute, if_pos rfl] at h
        simp only [List.map_cons, List.mem_cons]
        exact Or.inr (ih h)
      · simp only [removeAttribute, if_neg hk, List.map_cons, List.mem_cons] at h ⊢
        rcases h with h | h
        · exact Or.inl h
        · exact Or.inr (ih h)

theorem nodup_keys_removeAttribute (attrs : List (String × String)) (n : String)
    (hnd : (attrs.map Prod.fst).Nodup) :
    ((removeAttribute attrs n).map Prod.fst).Nodup := by
  induction attrs with
  | nil => simp [removeAttribute]
  | cons hd tl ih =>
      obtain ⟨k, w⟩ := hd
      rw [List.map_cons, List.nodup_cons] at hnd
      by_cases hk : k = n
      · subst hk
        rw [removeAttribute, if_pos rfl]
        exact ih hnd.2
      · simp only [removeAttribute, if_neg hk, List.map_cons, List.nodup_cons]
        exact ⟨fun hmem => hnd.1 (mem_keys_removeAttribute tl n k hmem), ih hnd.2⟩

theorem nodup_keys_applySets (attrs sets : List (String × String))
    (hnd : (attrs.map Prod.fst).Nodup) :
    ((applySets attrs sets).map Prod.fst).Nodup := by
  induction sets generalizing attrs with
  | nil => exact hnd
  | cons hd rest ih =>
      obtain ⟨n, v⟩ := hd
      rw [applySets]
      exact ih _ (nodup_keys_setAttribute attrs n v hnd)

theorem nodup_keys_applyRemoves (attrs : List (String × String)) (rems : List String)
    (hnd : (attrs.map Prod.fst).Nodup) :
    ((applyRemoves attrs rems).map Prod.fst).Nodup := by
  induction rems generalizing attrs with
  | nil => exact hnd
  | cons r rest ih =>
      rw [applyRemoves]
      exact ih _ (nodup_keys_removeAttribute attrs r hnd)

theorem nodup_keys_optimizedMergeAttrs (target source : JNode) (opts : MergeOpts)
    (ht : (target.attrs.map Prod.fst).Nodup) :
    (((optimizedMergeAttrs target source opts).1.attrs).map Prod.fst).Nodup := by
  show ((applyRemoves (applySets target.attrs _) _).map Prod.fst).Nodup
  exact nodup_keys_applyRemoves _ _ (nodup_keys_applySets _ _ ht)

theorem collectSets_eq_nil (t s : JNode) (o : MergeOpts) (l : List (String × String))
    (h : ∀ p ∈ l, ¬ setCond t s o p.1 p.2) : collectSets t s o l = [] := by
  induction l with
  | nil => rfl
  | cons hd rest ih =>
      obtain ⟨n, v⟩ := hd
      rw [collectSets_cons, if_neg (h (n, v) (List.mem_cons_self _ _))]
      exact ih fun p hp => h p (List.mem_cons_of_mem _ hp)

theorem collectRemoves_eq_nil (s : JNode) (o : MergeOpts) (l : List (String × String))
    (h : ∀ p ∈ l, ¬ removeCond s o p.1) : collectRemoves s o l = [] := by
  induction l with
  | nil => rfl
  | cons hd rest ih =>
      obtain ⟨n, v⟩ := hd
      rw [collectRemoves_cons, if_neg (h (n, v) (List.mem_cons_self _ _))]
      exact ih fun p hp => h p (List.mem_cons_of_mem _ hp)

/-- Claim C1 (corrected): with `ignoreFiltered` false, after the merge a name
present on source and not excluded carries source's value; a name absent from
source is absent from target; but an excluded name present on source is left
at target's prior state (kept with target's old value) rather than removed,
except for the "value" exception which resyncs source's value attribute when
the live value properties agree. -/
theorem mergeAttrs_full_sync_postcondition (target source : JNode) (opts : MergeOpts)
    (hign : opts.isIgnored = false)
    (hs : (source.attrs.map Prod.fst).Nodup) (name : String) :
    getAttribute (optimizedMergeAttrs target source opts).1.attrs name =
      match getAttribute source.attrs name with
      | some v =>
          if name ∈ opts.exclude then
            if name = "value" ∧ target.valueProp = source.valueProp then some v
            else getAttribute target.attrs name
          else some v
      | none => none := by
  cases hsrc : getAttribute source.attrs name with
  | none =>
      rw [merge_lookup_of_src_none target source opts name hsrc, if_pos (Or.inl hign)]
  | some v =>
      rw [merge_lookup_of_src_some target source opts hs name v hsrc]
      by_cases hexc : name ∈ opts.exclude
      · simp only [if_pos hexc]
      · simp only [if_neg hexc, if_pos (Or.inl hign)]

theorem mergeAttrs_full_sync_postcondition_witness :
    getAttribute (optimizedMergeAttrs ⟨[("class", "a"), ("old", "o")], none⟩
        ⟨[("class", "b")], none⟩ ⟨[], false⟩).1.attrs "old" = none := by
  have h := mergeAttrs_full_sync_postcondition ⟨[("class", "a"), ("old", "o")], none⟩
    ⟨[("class", "b")], none⟩ ⟨[], false⟩ rfl (by decide) "old"
  exact h.trans (by decide)

/-- Claim C1 counterexample: with `exclude = {"class"}` and `"class"` present on
both sides with different values, the claimed postcondition ("every other name
is absent from target") demands that `"class"` be absent after the merge, but
the code leaves it present with target's old value `"a"`: the removal pass
only removes names absent from source. -/
theorem mergeAttrs_full_sync_excluded_kept :
    getAttribute (optimizedMergeAttrs ⟨[("class", "a")], none⟩ ⟨[("class", "b")], none⟩
        ⟨["class"], false⟩).1.attrs "class" = some "a" ∧
    ¬ getAttribute (optimizedMergeAttrs ⟨[("class", "a")], none⟩ ⟨[("class", "b")], none⟩
        ⟨["class"], false⟩).1.attrs "class" = none := by
  exact ⟨by decide, by decide⟩

/-- Claim C2 (corrected): with `ignoreFiltered` true, the additions pass
records a set operation only for the non-excluded source attributes whose name
begins with "data-" and whose value differs from target's; a non-"data-"
source attribute is never set, so target keeps its old value for such names
(the claim's "regardless of whether the name begins with the data- prefix"
fails on the code). -/
theorem mergeAttrs_ignored_data_only (target source : JNode) (opts : MergeOpts)
    (hign : opts.isIgnored = true)
    (hs : (source.attrs.map Prod.fst).Nodup) (name v : String)
    (hsrc : getAttribute source.attrs name = some v) (hexc : name ∉ opts.exclude) :
    (jsStartsWith name "data-" = true →
      getAttribute (optimizedMergeAttrs target source opts).1.attrs name = some v)
    ∧ (jsStartsWith name "data-" = false →
      getAttribute (optimizedMergeAttrs target source opts).1.attrs name =
        getAttribute target.attrs name)
    ∧ ((name, v) ∈ (optimizedMergeAttrs target source opts).2.1 ↔
        (getAttribute target.attrs name ≠ some v ∧ jsStartsWith name "data-" = true)) := by
  refine ⟨?_, ?_, ?_⟩
  · intro hdata
    rw [merge_lookup_of_src_some target source opts hs name v hsrc, if_neg hexc,
      if_pos (Or.inr ⟨hign, hdata⟩)]
  · intro hdata
    have hcond : ¬ (opts.isIgnored = false ∨
        (opts.isIgnored = true ∧ jsStartsWith name "data-" = true)) := by
      rintro (h | ⟨h1, h2⟩)
      · rw [hign] at h; cases h
      · rw [hdata] at h2; cases h2
    rw [merge_lookup_of_src_some target source opts hs name v hsrc, if_neg hexc,
      if_neg hcond]
  · show (name, v) ∈ collectSets target source opts source.attrs ↔ _
    rw [mem_collectSets]
    constructor
    · rintro ⟨hmem, hsc⟩
      unfold setCond at hsc
      rw [if_neg hexc] at hsc
      refine ⟨hsc.1, ?_⟩
      rcases hsc.2 with h | h
      · rw [hign] at h; cases h
      · exact h.2
    · rintro ⟨h1, h2⟩
      refine ⟨getAttribute_some_mem _ _ _ hsrc, ?_⟩
      unfold setCond
      rw [if_neg hexc]
      exact ⟨h1, Or.inr ⟨hign, h2⟩⟩

theorem mergeAttrs_ignored_data_only_witness :
    getAttribute (optimizedMergeAttrs ⟨[], none⟩ ⟨[("data-x", "1")], none⟩
        ⟨[], true⟩).1.attrs "data-x" = some "1" := by
  have h := (mergeAttrs_ignored_data_only ⟨[], none⟩ ⟨[("data-x", "1")], none⟩
    ⟨[], true⟩ rfl (by decide) "data-x" "1" (by decide) (by decide)).1 (by decide)
  exact h

/-- Claim C2 counterexample: with `ignoreFiltered = true`, source carrying
`class="b"` and target carrying `class="a"`, the claim demands a recorded set
operation (and final value "b"), but the additions pass records nothing
because "class" does not start with "data-", and target keeps "a". -/
theorem mergeAttrs_ignored_skips_non_data :
    (optimizedMergeAttrs ⟨[("class", "a")], none⟩ ⟨[("class", "b")], none⟩
        ⟨[], true⟩).2.1 = [] ∧
    getAttribute (optimizedMergeAttrs ⟨[("class", "a")], none⟩ ⟨[("class", "b")], none⟩
        ⟨[], true⟩).1.attrs "class" = some "a" := by
  exact ⟨by decide, by decide⟩

/-- Claim C7 (confirmed): with "value" in the exclude set and target's live
value equal to source's (both `x`), the "value" attribute is resynced rather
than skipped: after the merge target still carries `value = x`. -/
theorem mergeAttrs_value_exception (target source : JNode) (opts : MergeOpts) (x : String)
    (hs : (source.attrs.map Prod.fst).Nodup)
    (hexc : "value" ∈ opts.exclude)
    (htv : target.valueProp = some x) (hsv : source.valueProp = some x)
    (hsattr : getAttribute source.attrs "value" = some x)
    (htattr : getAttribute target.attrs "value" = some x) :
    getAttribute (optimizedMergeAttrs target source opts).1.attrs "value" = some x := by
  rw [merge_lookup_of_src_some target source opts hs _ _ hsattr, if_pos hexc,
    if_pos ⟨rfl, by rw [htv, hsv]⟩]

theorem mergeAttrs_value_exception_witness :
    getAttribute (optimizedMergeAttrs ⟨[("value", "X")], some "X"⟩
        ⟨[("value", "X")], some "X"⟩ ⟨["value"], false⟩).1.attrs "value" = some "X" := by
  exact mergeAttrs_value_exception ⟨[("value", "X")], some "X"⟩
    ⟨[("value", "X")], some "X"⟩ ⟨["value"], false⟩ "X"
    (by decide) (by decide) rfl rfl (by decide) (by decide)

/-- Claim C3 (corrected): the second of two identical merges applies zero set
and zero remove operations, and leaves the target unchanged, provided the
"value" exception does not fire (i.e. unless "value" is excluded, source
carries a "value" attribute, and target's live value property equals
source's).  When that exception fires, the second call re-records the same
value set every time, so the unconditional "zero writes" of the claim fails
(see the counterexample). -/
theorem mergeAttrs_second_call_no_writes (target source : JNode) (opts : MergeOpts)
    (ht : (target.attrs.map Prod.fst).Nodup) (hs : (source.attrs.map Prod.fst).Nodup)
    (hnoexc : ¬ ("value" ∈ opts.exclude ∧ getAttribute source.attrs "value" ≠ none ∧
        target.valueProp = source.valueProp)) :
    (optimizedMergeAttrs (optimizedMergeAttrs target source opts).1 source opts).2.1 = []
    ∧ (optimizedMergeAttrs (optimizedMergeAttrs target source opts).1 source opts).2.2 = []
    ∧ (optimizedMergeAttrs (optimizedMergeAttrs target source opts).1 source opts).1 =
        (optimizedMergeAttrs target source opts).1 := by
  have hsets : collectSets (optimizedMergeAttrs target source opts).1 source opts
      source.attrs = [] := by
    apply collectSets_eq_nil
    rintro ⟨n, v⟩ hp
    have hv : getAttribute source.attrs n = some v :=
      getAttribute_eq_of_mem_nodup _ _ _ hs hp
    unfold setCond
    by_cases hexc : n ∈ opts.exclude
    · rw [if_pos hexc]
      rintro ⟨hval, hprop⟩
      apply hnoexc
      subst hval
      refine ⟨hexc, ?_, hprop⟩
      rw [hv]
      simp
    · rw [if_neg hexc]
      rintro ⟨hne, hcond⟩
      apply hne
      rw [merge_lookup_of_src_some target source opts hs n v hv, if_neg hexc,
        if_pos hcond]
  have hrems : collectRemoves source opts
      (optimizedMergeAttrs target source opts).1.attrs = [] := by
    apply collectRemoves_eq_nil
    rintro ⟨n, w⟩ hp
    have hne : getAttribute (optimizedMergeAttrs target source opts).1.attrs n ≠ none := by
      intro h0
      exact ((getAttribute_eq_none_iff _ _).1 h0) (List.mem_map.2 ⟨(n, w), hp, rfl⟩)
    unfold removeCond
    by_cases hign : opts.isIgnored = true
    · rw [if_pos hign]
      rintro ⟨hdata, hsrcnone, hsent⟩
      apply hne
      rw [merge_lookup_of_src_none target source opts n hsrcnone,
        if_pos (Or.inr ⟨hdata, hsent⟩)]
    · rw [if_neg hign]
      intro hsrcnone
      apply hne
      have hfalse : opts.isIgnored = false := by
        revert hign; cases opts.isIgnored <;> simp
      rw [merge_lookup_of_src_none target source opts n hsrcnone,
        if_pos (Or.inl hfalse)]
  refine ⟨hsets, hrems, ?_⟩
  show (⟨applyRemoves
      (applySets (optimizedMergeAttrs target source opts).1.attrs
        (collectSets (optimizedMergeAttrs target source opts).1 source opts source.attrs))
      (collectRemoves source opts (optimizedMergeAttrs target source opts).1.attrs),
    (optimizedMergeAttrs target source opts).1.valueProp⟩ : JNode) =
    (optimizedMergeAttrs target source opts).1
  rw [hsets, hrems]
  rfl

theorem mergeAttrs_second_call_no_writes_witness :
    (optimizedMergeAttrs
        (optimizedMergeAttrs ⟨[("class", "a")], none⟩ ⟨[("class", "b")], none⟩
          ⟨[], false⟩).1
        ⟨[("class", "b")], none⟩ ⟨[], false⟩).2.1 = [] ∧
    (optimizedMergeAttrs
        (optimizedMergeAttrs ⟨[("class", "a")], none⟩ ⟨[("class", "b")], none⟩
          ⟨[], false⟩).1
        ⟨[("class", "b")], none⟩ ⟨[], false⟩).2.2 = [] := by
  have h := mergeAttrs_second_call_no_writes ⟨[("class", "a")], none⟩
    ⟨[("class", "b")], none⟩ ⟨[], false⟩ (by decide) (by decide) (by decide)
  exact ⟨h.1, h.2.1⟩

/-- Claim C3 counterexample: with `exclude = {"value"}`, a source carrying
`value="X"`, and equal live value properties (`undefined === undefined`), the
second identical merge still records and applies a set of the "value"
attribute: the recorded set list of the second call is `[("value", "X")]`,
not `[]`, refuting "zero writes for every target, source, and options". -/
theorem mergeAttrs_second_call_writes_value :
    (optimizedMergeAttrs
        (optimizedMergeAttrs ⟨[], none⟩ ⟨[("value", "X")], none⟩ ⟨["value"], false⟩).1
        ⟨[("value", "X")], none⟩ ⟨["value"], false⟩).2.1 = [("value", "X")] := by
  decide

theorem mapGet_mapSet_self (cache : List (String × CacheEntry)) (key : String)
    (v : CacheEntry) : mapGet (mapSet cache key v) key = some v := by
  induction cache with
  | nil => simp [mapSet, mapGet]
  | cons hd rest ih =>
      obtain ⟨k, w⟩ := hd
      by_cases hk : k = key
      · rw [mapSet, if_pos hk, mapGet, if_pos hk]
      · rw [mapSet, if_neg hk, mapGet, if_neg hk]
        exact ih

theorem mapGet_mapSet_other (cache : List (String × CacheEntry)) (key k2 : String)
    (v : CacheEntry) (hne : k2 ≠ key) :
    mapGet (mapSet cache key v) k2 = mapGet cache k2 := by
  have hne2 : key ≠ k2 := fun h => hne h.symm
  induction cache with
  | nil => simp [mapSet, mapGet, hne2]
  | cons hd rest ih =>
      obtain ⟨k, w⟩ := hd
      by_cases hk : k = key
      · subst hk
        rw [mapSet, if_pos rfl, mapGet, mapGet, if_neg hne2, if_neg hne2]
      · rw [mapSet, if_neg hk, mapGet, mapGet]
        by_cases hk2 : k = k2
        · rw [if_pos hk2, if_pos hk2]
        · rw [if_neg hk2, if_neg hk2]
          exact ih

theorem mem_keys_mapSet (cache : List (String × CacheEntry)) (key : String)
    (v : CacheEntry) (m : String) (h : m ∈ (mapSet cache key v).map Prod.fst) :
    m ∈ cache.map Prod.fst ∨ m = key := by
  induction cache with
  | nil =>
      simp [mapSet] at h
      exact Or.inr h
  | cons hd rest ih =>
      obtain ⟨k, w⟩ := hd
      by_cases hk : k = key
      · rw [mapSet, if_pos hk] at h
        simp only [List.map_cons] at h ⊢
        exact Or.inl h
      · rw [mapSet, if_neg hk] at h
        simp only [List.map_cons, List.mem_cons] at h ⊢
        rcases h with h | h
        · exact Or.inl (Or.inl h)
        · rcases ih h with h1 | h1
          · exact Or.inl (Or.inr h1)
          · exact Or.inr h1

theorem mapSet_keys_nodup (cache : List (String × CacheEntry)) (key : String)
    (v : CacheEntry) (hnd : (cache.map Prod.fst).Nodup) :
    ((mapSet cache key v).map Prod.fst).Nodup := by
  induction cache with
  | nil => simp [mapSet]
  | cons hd rest ih =>
      obtain ⟨k, w⟩ := hd
      rw [List.map_cons, List.nodup_cons] at hnd
      by_cases hk : k = key
      · rw [mapSet, if_pos hk, List.map_cons, List.nodup_cons]
        exact hnd
      · rw [mapSet, if_neg hk, List.map_cons, List.nodup_cons]
        refine ⟨?_, ih hnd.2⟩
        intro hmem
        rcases mem_keys_mapSet rest key v k hmem with h1 | h1
        · exact hnd.1 h1
        · exact hk h1

theorem mapGet_eq_none_iff (cache : List (String × CacheEntry)) (k : String) :
    mapGet cache k = none ↔ k ∉ cache.map Prod.fst := by
  induction cache with
  | nil => simp [mapGet]
  | cons hd rest ih =>
      obtain ⟨k2, w⟩ := hd
      by_cases hk : k2 = k
      · subst hk; simp [mapGet]
      · simp [mapGet, hk, ih, Ne.symm hk]

theorem mem_keys_sweepExpired (cache : List (String × CacheEntry)) (now : Nat)
    (m : String) (h : m ∈ (sweepExpired now cache).map Prod.fst) :
    m ∈ cache.map Prod.fst := by
  induction cache with
  | nil => simp [sweepExpired] at h
  | cons hd rest ih =>
      obtain ⟨k, w⟩ := hd
      by_cases hexp : now - w.timestamp > CACHE_TTL
      · rw [sweepExpired, if_pos hexp] at h
        simp only [List.map_cons, List.mem_cons]
        exact Or.inr (ih h)
      · rw [sweepExpired, if_neg hexp] at h
        simp only [List.map_cons, List.mem_cons] at h ⊢
        rcases h with h | h
        · exact Or.inl h
        · exact Or.inr (ih h)

theorem mapGet_sweepExpired (cache : List (String × CacheEntry)) (now : Nat)
    (hnd : (cache.map Prod.fst).Nodup) (k : String) (v : CacheEntry) :
    mapGet (sweepExpired now cache) k = some v ↔
      mapGet cache k = some v ∧ now - v.timestamp ≤ CACHE_TTL := by
  induction cache with
  | nil => simp [sweepExpired, mapGet]
  | cons hd rest ih =>
      obtain ⟨k2, w⟩ := hd
      rw [List.map_cons, List.nodup_cons] at hnd
      by_cases hexp : now - w.timestamp > CACHE_TTL
      · rw [sweepExpired, if_pos hexp]
        by_cases hk : k2 = k
        · subst hk
          have hnone : mapGet (sweepExpired now rest) k2 = none :=
            (mapGet_eq_none_iff _ _).2
              (fun hm => hnd.1 (mem_keys_sweepExpired _ _ _ hm))
          rw [hnone, mapGet, if_pos rfl]
          constructor
          · intro h; cases h
          · rintro ⟨h1, h2⟩
            have hv : w = v := by injection h1
            rw [← hv] at h2
            omega
        · rw [mapGet, if_neg hk]
          exact ih hnd.2
      · rw [sweepExpired, if_neg hexp]
        by_cases hk : k2 = k
        · subst hk
          rw [mapGet, if_pos rfl, mapGet, if_pos rfl]
          constructor
          · intro h1
            refine ⟨h1, ?_⟩
            have hv : w = v := by injection h1
            rw [← hv]
            omega
          · rintro ⟨h1, _⟩
            exact h1
        · rw [mapGet, if_neg hk, mapGet, if_neg hk]
          exact ih hnd.2

theorem mapGet_sweepExpired_of_kept (cache : List (String × CacheEntry)) (now : Nat)
    (k : String) (v : CacheEntry) (h : mapGet cache k = some v)
    (hfresh : ¬ now - v.timestamp > CACHE_TTL) :
    mapGet (sweepExpired now cache) k = some v := by
  induction cache with
  | nil => simp [mapGet] at h
  | cons hd rest ih =>
      obtain ⟨k2, w⟩ := hd
      by_cases hk : k2 = k
      · subst hk
        rw [mapGet, if_pos rfl] at h
        have hv : w = v := by injection h
        subst hv
        rw [sweepExpired, if_neg hfresh, mapGet, if_pos rfl]
      · rw [mapGet, if_neg hk] at h
        by_cases hexp : now - w.timestamp > CACHE_TTL
        · rw [sweepExpired, if_pos hexp]
          exact ih h
        · rw [sweepExpired, if_neg hexp, mapGet, if_neg hk]
          exact ih h

theorem optimizedDOMAll_hit (cache : List (String × CacheEntry)) (node : DOMNode)
    (query : String) (live : List Nat) (now : Nat) (cached : CacheEntry)
    (hc : mapGet cache (cacheKeyOf node query) = some cached)
    (hfresh : now - cached.timestamp < CACHE_TTL) :
    optimizedDOMAll cache node query live now = (cached.results, cache, false) := by
  show (match mapGet cache (cacheKeyOf node query) with
    | some cached =>
        if now - cached.timestamp < CACHE_TTL then (cached.results, cache, false)
        else domAllMiss cache (cacheKeyOf node query) live now
    | none => domAllMiss cache (cacheKeyOf node query) live now) = _
  rw [hc]
  dsimp only
  rw [if_pos hfresh]

theorem optimizedDOMAll_miss (cache : List (String × CacheEntry)) (node : DOMNode)
    (query : String) (live : List Nat) (now : Nat)
    (hc : ∀ cached, mapGet cache (cacheKeyOf node query) = some cached →
      ¬ now - cached.timestamp < CACHE_TTL) :
    optimizedDOMAll cache node query live now =
      domAllMiss cache (cacheKeyOf node query) live now := by
  show (match mapGet cache (cacheKeyOf node query) with
    | some cached =>
        if now - cached.timestamp < CACHE_TTL then (cached.results, cache, false)
        else domAllMiss cache (cacheKeyOf node query) live now
    | none => domAllMiss cache (cacheKeyOf node query) live now) = _
  cases hcc : mapGet cache (cacheKeyOf node query) with
  | none => rfl
  | some c =>
      dsimp only
      rw [if_neg (hc c hcc)]

theorem domAllMiss_eq (cache : List (String × CacheEntry)) (key : String)
    (live : List Nat) (now : Nat) :
    domAllMiss cache key live now =
      (live,
       if (mapSet cache key ⟨live, now⟩).length > 100
         then sweepExpired now (mapSet cache key ⟨live, now⟩)
         else mapSet cache key ⟨live, now⟩,
       true) := rfl

/-- Claim C4 (confirmed): a lookup strictly less than `CACHE_TTL = 100`
milliseconds after the entry under the same key was stored returns the stored
snapshot without touching the cache table or re-querying; a lookup at or after
100ms never returns the stored entry, re-runs the query, and stores a fresh
entry under the same key. -/
theorem domAll_ttl_boundary (cache : List (String × CacheEntry)) (node : DOMNode)
    (query : String) (live : List Nat) (now : Nat) (e : CacheEntry)
    (he : mapGet cache (cacheKeyOf node query) = some e) :
    (now - e.timestamp < CACHE_TTL →
      optimizedDOMAll cache node query live now = (e.results, cache, false))
    ∧ (¬ now - e.timestamp < CACHE_TTL →
      (optimizedDOMAll cache node query live now).1 = live
      ∧ (optimizedDOMAll cache node query live now).2.2 = true
      ∧ mapGet (optimizedDOMAll cache node query live now).2.1 (cacheKeyOf node query) =
          some ⟨live, now⟩) := by
  constructor
  · intro hfresh
    exact optimizedDOMAll_hit cache node query live now e he hfresh
  · intro hexp
    have h1 := optimizedDOMAll_miss cache node query live now (by
      intro c hc
      rw [hc] at he
      have : c = e := by injection he
      rw [this]
      exact hexp)
    rw [h1, domAllMiss_eq]
    refine ⟨rfl, rfl, ?_⟩
    have hstored : mapGet (mapSet cache (cacheKeyOf node query) ⟨live, now⟩)
        (cacheKeyOf node query) = some ⟨live, now⟩ := mapGet_mapSet_self _ _ _
    by_cases hlen : (mapSet cache (cacheKeyOf node query) ⟨live, now⟩).length > 100
    · simp only [if_pos hlen]
      exact mapGet_sweepExpired_of_kept _ _ _ _ hstored (by simp [CACHE_TTL])
    · simp only [if_neg hlen]
      exact hstored

theorem domAll_ttl_boundary_witness :
    optimizedDOMAll [("a:q", ⟨[1, 2], 0⟩)] ⟨"a", "div", ""⟩ "q" [3] 50 =
      ([1, 2], [("a:q", ⟨[1, 2], 0⟩)], false)
    ∧ mapGet (optimizedDOMAll [("a:q", ⟨[1, 2], 0⟩)] ⟨"a", "div", ""⟩ "q" [3] 100).2.1
        (cacheKeyOf ⟨"a", "div", ""⟩ "q") = some ⟨[3], 100⟩ := by
  constructor
  · exact (domAll_ttl_boundary [("a:q", ⟨[1, 2], 0⟩)] ⟨"a", "div", ""⟩ "q" [3] 50
      ⟨[1, 2], 0⟩ (by decide)).1 (by decide)
  · exact ((domAll_ttl_boundary [("a:q", ⟨[1, 2], 0⟩)] ⟨"a", "div", ""⟩ "q" [3] 100
      ⟨[1, 2], 0⟩ (by decide)).2 (by decide)).2.2

/-- Claim C8 (corrected): the eviction sweep runs only on an insertion that
leaves the table above 100 entries, never on a read; when it runs it deletes
exactly the entries strictly older than the TTL (`now - timestamp > 100`) and
keeps every entry of age at most 100 — in particular an entry aged exactly
100ms, although already invalid for reads, survives the sweep, so "deletes
every expired entry (age ≥ TTL)" fails at the boundary. -/
theorem domAll_sweep_characterization (cache : List (String × CacheEntry))
    (node : DOMNode) (query : String) (live : List Nat) (now : Nat)
    (hnd : (cache.map Prod.fst).Nodup) :
    (∀ c, mapGet cache (cacheKeyOf node query) = some c →
      now - c.timestamp < CACHE_TTL →
      (optimizedDOMAll cache node query live now).2.1 = cache)
    ∧ ((∀ c, mapGet cache (cacheKeyOf node query) = some c →
          ¬ now - c.timestamp < CACHE_TTL) →
        ∀ k2 e2,
          mapGet (optimizedDOMAll cache node query live now).2.1 k2 = some e2 ↔
            (mapGet (mapSet cache (cacheKeyOf node query) ⟨live, now⟩) k2 = some e2
             ∧ ((mapSet cache (cacheKeyOf node query) ⟨live, now⟩).length ≤ 100
                ∨ now - e2.timestamp ≤ CACHE_TTL))) := by
  constructor
  · intro c hc hfresh
    rw [optimizedDOMAll_hit cache node query live now c hc hfresh]
  · intro hmiss k2 e2
    rw [optimizedDOMAll_miss cache node query live now hmiss, domAllMiss_eq]
    by_cases hlen : (mapSet cache (cacheKeyOf node query) ⟨live, now⟩).length > 100
    · simp only [if_pos hlen]
      rw [mapGet_sweepExpired _ _ (mapSet_keys_nodup _ _ _ hnd)]
      constructor
      · rintro ⟨h2, h3⟩
        exact ⟨h2, Or.inr h3⟩
      · rintro ⟨h2, h3 | h3⟩
        · omega
        · exact ⟨h2, h3⟩
    · simp only [if_neg hlen]
      constructor
      · intro h2
        exact ⟨h2, Or.inl (by omega)⟩
      · rintro ⟨h2, _⟩
        exact h2

theorem domAll_sweep_characterization_witness :
    (optimizedDOMAll [("n:q", ⟨[1], 0⟩)] ⟨"n", "div", "c"⟩ "q" [2] 50).2.1 =
      [("n:q", ⟨[1], 0⟩)] := by
  exact (domAll_sweep_characterization [("n:q", ⟨[1], 0⟩)] ⟨"n", "div", "c"⟩ "q" [2] 50
    (by decide)).1 ⟨[1], 0⟩ (by decide) (by decide)

/-- Claim C8 counterexample: at `now = 1000` a miss-insertion into
`boundaryCache` leaves 104 entries, so the sweep runs (it does delete the
entry of age 200), yet the entry of age exactly 100 — which is invalid for
reads, `¬(1000 - 900 < 100)` — survives the sweep, refuting "deletes every
expired entry (age ≥ TTL)". -/
theorem domAll_sweep_keeps_boundary_entry :
    mapGet (optimizedDOMAll boundaryCache ⟨"n", "div", ""⟩ "q" [] 1000).2.1 "old" =
      some ⟨[], 900⟩
    ∧ ¬ (1000 - 900 < CACHE_TTL)
    ∧ mapGet (optimizedDOMAll boundaryCache ⟨"n", "div", ""⟩ "q" [] 1000).2.1 "dead" =
      none := by
  refine ⟨by decide, by decide, by decide⟩

theorem getLast?_append_single {α : Type} (l : List α) (x : α) :
    (l ++ [x]).getLast? = some x :=
  List.getLast?_concat l

theorem dropLast_append_single {α : Type} (l : List α) (x : α) :
    (l ++ [x]).dropLast = l := by
  simp

/-- Claim C9 (confirmed): the pool is LIFO — `release(obj)` followed by
`get()` hands back exactly the released instance with the reset function
already applied, restoring the previous pool; `get()` on an empty pool
constructs a fresh instance via the factory; and `release` always grows the
stored pool by exactly one entry, with no size cap. -/
theorem objectPool_lifo {α : Type} (p : ObjectPool α) (obj : α) :
    ((p.release obj).get).1 = p.applyReset obj
    ∧ ((p.release obj).get).2.pool = p.pool
    ∧ (p.pool = [] → p.get = (p.createFn (), p))
    ∧ (p.release obj).pool.length = p.pool.length + 1 := by
  refine ⟨?_, ?_, ?_, ?_⟩
  · show (ObjectPool.get ⟨p.createFn, p.resetFn, p.pool ++ [p.applyReset obj]⟩).1 = _
    unfold ObjectPool.get
    rw [getLast?_append_single]
  · show (ObjectPool.get ⟨p.createFn, p.resetFn, p.pool ++ [p.applyReset obj]⟩).2.pool = _
    unfold ObjectPool.get
    rw [getLast?_append_single]
    exact dropLast_append_single _ _
  · intro hempty
    unfold ObjectPool.get
    rw [hempty]
    rfl
  · show (p.pool ++ [p.applyReset obj]).length = p.pool.length + 1
    simp

theorem objectPool_lifo_witness :
    ((ObjectPool.release ⟨fun _ => (0 : Nat), some (fun n => n + 1), [7]⟩ 5).get).1 = 6
    ∧ (ObjectPool.get (⟨fun _ => (0 : Nat), some (fun n => n + 1), []⟩ : ObjectPool Nat)).1
        = 0 := by
  have h := objectPool_lifo (⟨fun _ => (0 : Nat), some (fun n => n + 1), [7]⟩ : ObjectPool Nat) 5
  have h2 := objectPool_lifo (⟨fun _ => (0 : Nat), some (fun n => n + 1), []⟩ : ObjectPool Nat) 5
  exact ⟨h.1, by rw [h2.2.2.1 rfl]⟩

/-- Claim C6 (confirmed): in initial full-sync (join) mode, for every node not
flagged "destroyed" in the auxiliary store, `getNodeKey` returns exactly the
node's explicit identity — the `id` property, which is the id attribute when
present and `""` when absent — and when the attribute is absent the returned
key is falsy, i.e. "unkeyed" to the differ (JS collapses the absent id to the
falsy `""` rather than a literal `null`). -/
theorem getNodeKey_join_mode (store : PrivStore) (node : MNode)
    (hnd : jsTruthy (optimizedGetPrivate store node.ref "destroyed") = false) :
    getNodeKey store true node = JSVal.vstr node.id
    ∧ (node.id = "" → (getNodeKey store true node).truthy = false) := by
  have hdes : isPhxDestroyed store node = false := by
    unfold isPhxDestroyed
    rw [hnd, Bool.and_false]
  have h1 : getNodeKey store true node = JSVal.vstr node.id := by
    unfold getNodeKey
    rw [hdes]
    simp
  refine ⟨h1, ?_⟩
  intro hid
  rw [h1, JSVal.truthy, hid]
  rfl

theorem getNodeKey_join_mode_witness :
    getNodeKey ([] : PrivStore) true ⟨0, "abc", none⟩ = JSVal.vstr "abc"
    ∧ (getNodeKey ([] : PrivStore) true ⟨1, "", none⟩).truthy = false := by
  constructor
  · exact (getNodeKey_join_mode ([] : PrivStore) ⟨0, "abc", none⟩ rfl).1
  · exact (getNodeKey_join_mode ([] : PrivStore) ⟨1, "", none⟩ rfl).2 rfl

/-- Claim C10 (confirmed): a negative `streamAt` falls through both the
`streamAt === 0` and the `streamAt > 0` branches, so the call performs no
structural mutation and leaves the child order unchanged, whatever the
container and item. -/
theorem streamReorder_negative_noop (children : List Nat) (item : Nat) (streamAt : Int)
    (hasParent : Bool) (hneg : streamAt < 0) :
    optimizedStreamReorder children item streamAt hasParent = (children, false) := by
  unfold optimizedStreamReorder
  cases hasParent with
  | false => rw [if_pos rfl]
  | true =>
      rw [if_neg (by simp), if_neg (by omega), if_neg (by omega)]

theorem streamReorder_negative_noop_witness :
    optimizedStreamReorder [10, 11, 12] 12 (-1) true = ([10, 11, 12], false) :=
  streamReorder_negative_noop [10, 11, 12] 12 (-1) true (by decide)

theorem idxOf_lt_length (l : List Nat) (x : Nat) (h : x ∈ l) : idxOf l x < l.length := by
  induction l with
  | nil => cases h
  | cons y rest ih =>
      by_cases hy : y = x
      · rw [idxOf, if_pos hy]
        simp
      · rw [idxOf, if_neg hy, List.length_cons]
        have hx : x ∈ rest := by
          rcases List.mem_cons.1 h with h1 | h1
          · exact absurd h1.symm hy
          · exact h1
        have := ih hx
        omega

theorem get?_idxOf (l : List Nat) (x : Nat) (h : x ∈ l) : l.get? (idxOf l x) = some x := by
  induction l with
  | nil => cases h
  | cons y rest ih =>
      by_cases hy : y = x
      · rw [idxOf, if_pos hy, hy]
        rfl
      · rw [idxOf, if_neg hy]
        have hx : x ∈ rest := by
          rcases List.mem_cons.1 h with h1 | h1
          · exact absurd h1.symm hy
          · exact h1
        show rest.get? (idxOf rest x) = some x
        exact ih hx

theorem idxOf_get? (l : List Nat) (x : Nat) (j : Nat) (hnd : l.Nodup)
    (h : l.get? j = some x) : idxOf l x = j := by
  induction l generalizing j with
  | nil => simp at h
  | cons y rest ih =>
      rw [List.nodup_cons] at hnd
      cases j with
      | zero =>
          have hxy : y = x := by injection h
          rw [idxOf, if_pos hxy]
      | succ j2 =>
          have hx : rest.get? j2 = some x := h
          by_cases hy : y = x
          · subst hy
            exact absurd (List.get?_mem hx) hnd.1
          · rw [idxOf, if_neg hy, ih j2 hnd.2 hx]

theorem idxOf_of_not_mem (l : List Nat) (x : Nat) (h : x ∉ l) : idxOf l x = l.length := by
  induction l with
  | nil => rfl
  | cons y rest ih =>
      rw [idxOf, if_neg (by rintro rfl; exact h (List.mem_cons_self _ _)),
        List.length_cons, ih (fun hx => h (List.mem_cons_of_mem _ hx))]

theorem idxOf_ne (l : List Nat) (a b : Nat) (ha : a ∈ l) (hab : a ≠ b) :
    idxOf l a ≠ idxOf l b := by
  intro heq
  by_cases hb : b ∈ l
  · have h1 := get?_idxOf l a ha
    have h2 := get?_idxOf l b hb
    rw [← heq, h1] at h2
    exact hab (by injection h2)
  · have h1 := idxOf_lt_length l a ha
    rw [idxOf_of_not_mem l b hb] at heq
    omega

theorem mem_removeItem (l : List Nat) (x b : Nat) :
    x ∈ removeItem l b ↔ x ∈ l ∧ x ≠ b := by
  induction l with
  | nil => simp [removeItem]
  | cons y rest ih =>
      by_cases hy : y = b
      · subst hy
        rw [removeItem, if_pos rfl, ih]
        constructor
        · rintro ⟨h1, h2⟩
          exact ⟨List.mem_cons_of_mem _ h1, h2⟩
        · rintro ⟨h1, h2⟩
          rcases List.mem_cons.1 h1 with h3 | h3
          · exact absurd h3 h2
          · exact ⟨h3, h2⟩
      · rw [removeItem, if_neg hy]
        constructor
        · intro h1
          rcases List.mem_cons.1 h1 with h3 | h3
          · subst h3
            exact ⟨List.mem_cons_self _ _, fun hxb => hy hxb⟩
          · obtain ⟨h4, h5⟩ := ih.1 h3
            exact ⟨List.mem_cons_of_mem _ h4, h5⟩
        · rintro ⟨h1, h2⟩
          rcases List.mem_cons.1 h1 with h3 | h3
          · subst h3
            exact List.mem_cons_self _ _
          · exact List.mem_cons_of_mem _ (ih.2 ⟨h3, h2⟩)

theorem removeItem_of_not_mem (l : List Nat) (x : Nat) (h : x ∉ l) : removeItem l x = l := by
  induction l with
  | nil => rfl
  | cons y rest ih =>
      rw [removeItem, if_neg (by rintro rfl; exact h (List.mem_cons_self _ _)),
        ih (fun hx => h (List.mem_cons_of_mem _ hx))]

theorem not_mem_removeItem_self (l : List Nat) (x : Nat) : x ∉ removeItem l x :=
  fun h => ((mem_removeItem l x x).1 h).2 rfl

theorem length_removeItem (l : List Nat) (x : Nat) (hnd : l.Nodup) (h : x ∈ l) :
    (removeItem l x).length = l.length - 1 := by
  induction l with
  | nil => cases h
  | cons y rest ih =>
      rw [List.nodup_cons] at hnd
      by_cases hy : y = x
      · subst hy
        rw [removeItem, if_pos rfl, removeItem_of_not_mem rest y hnd.1]
        simp
      · rw [removeItem, if_neg hy, List.length_cons, List.length_cons]
        have hx : x ∈ rest := by
          rcases List.mem_cons.1 h with h1 | h1
          · exact absurd h1.symm hy
          · exact h1
        rw [ih hnd.2 hx]
        have := idxOf_lt_length rest x hx
        omega

theorem insertBeforeRef_eq_listInsertAt (l : List Nat) (x r : Nat) (h : r ∈ l) :
    insertBeforeRef l x r = listInsertAt (idxOf l r) x l := by
  induction l with
  | nil => cases h
  | cons y rest ih =>
      by_cases hy : y = r
      · rw [insertBeforeRef, if_pos hy, idxOf, if_pos hy]
        rfl
      · rw [insertBeforeRef, if_neg hy, idxOf, if_neg hy]
        have hr : r ∈ rest := by
          rcases List.mem_cons.1 h with h1 | h1
          · exact absurd h1.symm hy
          · exact h1
        rw [ih hr]
        rfl

theorem listInsertAt_idxOf (l : List Nat) (x : Nat) (hnd : l.Nodup) (h : x ∈ l) :
    listInsertAt (idxOf l x) x (removeItem l x) = l := by
  induction l with
  | nil => cases h
  | cons y rest ih =>
      rw [List.nodup_cons] at hnd
      by_cases hy : y = x
      · subst hy
        rw [idxOf, if_pos rfl, removeItem, if_pos rfl, removeItem_of_not_mem rest y hnd.1]
        rfl
      · rw [idxOf, if_neg hy, removeItem, if_neg hy]
        have hx : x ∈ rest := by
          rcases List.mem_cons.1 h with h1 | h1
          · exact absurd h1.symm hy
          · exact h1
        show y :: listInsertAt (idxOf rest x) x (removeItem rest x) = y :: rest
        rw [ih hnd.2 hx]

theorem listInsertAt_length (l : List Nat) (x : Nat) :
    listInsertAt l.length x l = l ++ [x] := by
  induction l with
  | nil => rfl
  | cons y rest ih =>
      rw [List.length_cons]
      show y :: listInsertAt rest.length x rest = y :: (rest ++ [x])
      rw [ih]

theorem idxOf_removeItem (l : List Nat) (a b : Nat) (hnd : l.Nodup) (ha : a ∈ l)
    (hab : a ≠ b) :
    idxOf (removeItem l b) a =
      if idxOf l a < idxOf l b then idxOf l a else idxOf l a - 1 := by
  induction l with
  | nil => cases ha
  | cons y rest ih =>
      rw [List.nodup_cons] at hnd
      by_cases hyb : y = b
      · subst hyb
        have hay : a ≠ y := hab
        have hrm : removeItem (y :: rest) y = rest := by
          rw [removeItem, if_pos rfl, removeItem_of_not_mem rest y hnd.1]
        have hia : idxOf (y :: rest) a = idxOf rest a + 1 := by
          rw [idxOf, if_neg (fun hh => hay hh.symm)]
        have hib : idxOf (y :: rest) y = 0 := by
          rw [idxOf, if_pos rfl]
        rw [hrm, hia, hib, if_neg (by omega)]
        omega
      · by_cases hya : y = a
        · subst hya
          have hrm : removeItem (y :: rest) b = y :: removeItem rest b := by
            rw [removeItem, if_neg hyb]
          have h1 : idxOf (removeItem (y :: rest) b) y = 0 := by
            rw [hrm, idxOf, if_pos rfl]
          have hia : idxOf (y :: rest) y = 0 := by
            rw [idxOf, if_pos rfl]
          have hib : idxOf (y :: rest) b = idxOf rest b + 1 := by
            rw [idxOf, if_neg hyb]
          rw [h1, hia, hib, if_pos (by omega)]
        · have hrm : removeItem (y :: rest) b = y :: removeItem rest b := by
            rw [removeItem, if_neg hyb]
          have ha2 : a ∈ rest := by
            rcases List.mem_cons.1 ha with h1 | h1
            · exact absurd h1.symm hya
            · exact h1
          have h1 : idxOf (removeItem (y :: rest) b) a = idxOf (removeItem rest b) a + 1 := by
            rw [hrm, idxOf, if_neg hya]
          have hia : idxOf (y :: rest) a = idxOf rest a + 1 := by
            rw [idxOf, if_neg hya]
          have hib : idxOf (y :: rest) b = idxOf rest b + 1 := by
            rw [idxOf, if_neg hyb]
          rw [h1, hia, hib, ih hnd.2 ha2]
          have hne := idxOf_ne rest a b ha2 hab
          by_cases hlt : idxOf rest a < idxOf rest b
          · rw [if_pos hlt,
              if_pos (show idxOf rest a + 1 < idxOf rest b + 1 by omega)]
          · rw [if_neg hlt,
              if_neg (show ¬ idxOf rest a + 1 < idxOf rest b + 1 by omega)]
            omega

theorem nextElementSibling_get? (l : List Nat) (s : Nat) (j : Nat) (hnd : l.Nodup)
    (h : l.get? j = some s) : nextElementSibling l s = l.get? (j + 1) := by
  induction l generalizing j with
  | nil => simp at h
  | cons y rest ih =>
      rw [List.nodup_cons] at hnd
      cases j with
      | zero =>
          have hys : y = s := by injection h
          subst hys
          rw [nextElementSibling, if_pos rfl]
          cases rest with
          | nil => rfl
          | cons z zs => rfl
      | succ j2 =>
          have hs : rest.get? j2 = some s := h
          by_cases hy : y = s
          · subst hy
            exact absurd (List.get?_mem hs) hnd.1
          · rw [nextElementSibling, if_neg hy]
            exact ih j2 hnd.2 hs

theorem get?_listInsertAt (j : Nat) (x : Nat) (l : List Nat) (h : j ≤ l.length) :
    (listInsertAt j x l).get? j = some x := by
  induction j generalizing l with
  | zero => rfl
  | succ j2 ih =>
      cases l with
      | nil => simp at h
      | cons y rest =>
          rw [listInsertAt]
          show (listInsertAt j2 x rest).get? j2 = some x
          exact ih rest (by simpa using h)

theorem removeItem_listInsertAt (j : Nat) (x : Nat) (l : List Nat) (h : x ∉ l) :
    removeItem (listInsertAt j x l) x = l := by
  induction j generalizing l with
  | zero =>
      rw [listInsertAt, removeItem, if_pos rfl, removeItem_of_not_mem l x h]
  | succ j2 ih =>
      cases l with
      | nil =>
          rw [listInsertAt, removeItem, if_pos rfl]
          rfl
      | cons y rest =>
          have hy : ¬ y = x := fun hh => h (hh ▸ List.mem_cons_self y rest)
          rw [listInsertAt, removeItem, if_neg hy,
            ih rest (fun hx => h (List.mem_cons_of_mem _ hx))]

theorem streamReorder_pos_eq (children : List Nat) (item : Nat) (streamAt : Int)
    (h0 : ¬ streamAt = 0) (hpos : streamAt > 0) :
    optimizedStreamReorder children item streamAt true =
      (if jsIndexOf children item ≠ min streamAt ((children.length : Int) - 1) then
        if min streamAt ((children.length : Int) - 1) ≥ (children.length : Int) - 1 then
          (domAppendChild children item, true)
        else
          match children.get? (min streamAt ((children.length : Int) - 1)).toNat with
          | some sibling =>
              if jsIndexOf children item > min streamAt ((children.length : Int) - 1) then
                (domInsertBefore children item (some sibling), true)
              else
                (domInsertBefore children item (nextElementSibling children sibling), true)
          | none => (children, false)
      else (children, false)) := by
  unfold optimizedStreamReorder
  rw [if_neg (by simp), if_neg h0, if_pos hpos]

/-- Claim C5 (confirmed): when `item` is a child of the container and
`streamAt` is non-negative, after the reorder `item` occupies the clamped
position `min streamAt (childCount - 1)` (position 0 for `streamAt = 0`), and
the relative order of all other children is preserved: the result is exactly
the other children with `item` re-inserted at the clamped index.  The
spec's `[A,B,C,D]`, `reorder(D, 1)` example instantiates to `[A,D,B,C]` in
the witness. -/
theorem streamReorder_spec (children : List Nat) (item : Nat) (streamAt : Int)
    (hnd : children.Nodup) (hmem : item ∈ children) (hnn : 0 ≤ streamAt) :
    (optimizedStreamReorder children item streamAt true).1 =
      listInsertAt (min streamAt ((children.length : Int) - 1)).toNat item
        (removeItem children item)
    ∧ ((optimizedStreamReorder children item streamAt true).1).get?
        (min streamAt ((children.length : Int) - 1)).toNat = some item
    ∧ removeItem (optimizedStreamReorder children item streamAt true).1 item =
        removeItem children item := by
  have hlen1 : 1 ≤ children.length := by
    cases children with
    | nil => cases hmem
    | cons c0 rest => simp
  have hminle : (min streamAt ((children.length : Int) - 1)).toNat ≤
      (removeItem children item).length := by
    rw [length_removeItem children item hnd hmem]
    have h1 : min streamAt ((children.length : Int) - 1) ≤ (children.length : Int) - 1 :=
      min_le_right _ _
    omega
  have hmain : (optimizedStreamReorder children item streamAt true).1 =
      listInsertAt (min streamAt ((children.length : Int) - 1)).toNat item
        (removeItem children item) := by
    by_cases h0 : streamAt = 0
    · subst h0
      have hminz : min (0 : Int) ((children.length : Int) - 1) = 0 :=
        min_eq_left (by omega)
      rw [hminz]
      cases children with
      | nil => cases hmem
      | cons c0 rest =>
          rw [List.nodup_cons] at hnd
          unfold optimizedStreamReorder
          rw [if_neg (by simp), if_pos rfl]
          by_cases hc0 : c0 = item
          · rw [if_neg (by simp [hc0])]
            show c0 :: rest = listInsertAt (0 : Int).toNat item (removeItem (c0 :: rest) item)
            rw [removeItem, if_pos hc0, removeItem_of_not_mem rest item (hc0 ▸ hnd.1), hc0]
            rfl
          · rw [if_pos (by simp [hc0])]
            show insertBeforeRef (removeItem (c0 :: rest) item) item c0 =
              listInsertAt (0 : Int).toNat item (removeItem (c0 :: rest) item)
            have hrm : removeItem (c0 :: rest) item = c0 :: removeItem rest item := by
              rw [removeItem, if_neg hc0]
            rw [hrm, insertBeforeRef, if_pos rfl]
            rfl
    · have hpos : streamAt > 0 := by omega
      rw [streamReorder_pos_eq children item streamAt h0 hpos]
      have hT0 : 0 ≤ min streamAt ((children.length : Int) - 1) :=
        le_min (by omega) (by omega)
      have hTle : min streamAt ((children.length : Int) - 1) ≤ (children.length : Int) - 1 :=
        min_le_right _ _
      have hjs : jsIndexOf children item = ((idxOf children item : Nat) : Int) := by
        rw [jsIndexOf, if_pos hmem]
      have hcnlt : idxOf children item < children.length := idxOf_lt_length children item hmem
      have htnc : ((min streamAt ((children.length : Int) - 1)).toNat : Int) =
          min streamAt ((children.length : Int) - 1) := Int.toNat_of_nonneg hT0
      by_cases hct : ((idxOf children item : Nat) : Int) =
          min streamAt ((children.length : Int) - 1)
      · rw [hjs, if_neg (fun hne => hne hct)]
        show children = listInsertAt (min streamAt ((children.length : Int) - 1)).toNat item
          (removeItem children item)
        have htn : (min streamAt ((children.length : Int) - 1)).toNat =
            idxOf children item := by omega
        rw [htn]
        exact (listInsertAt_idxOf children item hnd hmem).symm
      · rw [hjs, if_pos hct]
        by_cases hTmax : min streamAt ((children.length : Int) - 1) ≥
            (children.length : Int) - 1
        · rw [if_pos hTmax]
          have hTeq : min streamAt ((children.length : Int) - 1) =
              (children.length : Int) - 1 := le_antisymm hTle hTmax
          have htn : (min streamAt ((children.length : Int) - 1)).toNat =
              children.length - 1 := by omega
          show domAppendChild children item = listInsertAt
            (min streamAt ((children.length : Int) - 1)).toNat item (removeItem children item)
          rw [htn]
          unfold domAppendChild
          rw [← length_removeItem children item hnd hmem]
          exact (listInsertAt_length _ _).symm
        · rw [if_neg hTmax]
          have hTlt : min streamAt ((children.length : Int) - 1) <
              (children.length : Int) - 1 := lt_of_not_ge hTmax
          have htnlt : (min streamAt ((children.length : Int) - 1)).toNat + 1 <
              children.length := by omega
          obtain ⟨sib, hsib⟩ : ∃ s,
              children.get? (min streamAt ((children.length : Int) - 1)).toNat = some s := by
            cases hg : children.get? (min streamAt ((children.length : Int) - 1)).toNat with
            | none =>
                exfalso
                rw [List.get?_eq_none] at hg
                omega
            | some s => exact ⟨s, rfl⟩
          rw [hsib]
          dsimp only
          have hsibmem : sib ∈ children := List.get?_mem hsib
          have hisib : idxOf children sib =
              (min streamAt ((children.length : Int) - 1)).toNat :=
            idxOf_get? children sib _ hnd hsib
          have hsibne : sib ≠ item := by
            intro he
            apply hct
            rw [← he, hisib, htnc]
          by_cases hgt : ((idxOf children item : Nat) : Int) >
              min streamAt ((children.length : Int) - 1)
          · rw [if_pos hgt]
            show insertBeforeRef (removeItem children item) item sib = listInsertAt
              (min streamAt ((children.length : Int) - 1)).toNat item
              (removeItem children item)
            have hsibmem2 : sib ∈ removeItem children item :=
              (mem_removeItem children sib item).2 ⟨hsibmem, hsibne⟩
            rw [insertBeforeRef_eq_listInsertAt _ _ _ hsibmem2]
            have hidx : idxOf (removeItem children item) sib =
                (min streamAt ((children.length : Int) - 1)).toNat := by
              rw [idxOf_removeItem children sib item hnd hsibmem hsibne, hisib,
                if_pos (by omega)]
            rw [hidx]
          · rw [if_neg hgt]
            obtain ⟨r, hr⟩ : ∃ r, children.get?
                ((min streamAt ((children.length : Int) - 1)).toNat + 1) = some r := by
              cases hg : children.get?
                  ((min streamAt ((children.length : Int) - 1)).toNat + 1) with
              | none =>
                  exfalso
                  rw [List.get?_eq_none] at hg
                  omega
              | some r => exact ⟨r, rfl⟩
            have hnext : nextElementSibling children sib = some r := by
              rw [nextElementSibling_get? children sib _ hnd hsib, hr]
            rw [hnext]
            show insertBeforeRef (removeItem children item) item r = listInsertAt
              (min streamAt ((children.length : Int) - 1)).toNat item
              (removeItem children item)
            have hrmem : r ∈ children := List.get?_mem hr
            have hir : idxOf children r =
                (min streamAt ((children.length : Int) - 1)).toNat + 1 :=
              idxOf_get? children r _ hnd hr
            have hrne : r ≠ item := by
              intro he
              rw [he] at hir
              omega
            have hrmem2 : r ∈ removeItem children item :=
              (mem_removeItem children r item).2 ⟨hrmem, hrne⟩
            rw [insertBeforeRef_eq_listInsertAt _ _ _ hrmem2]
            have hidx : idxOf (removeItem children item) r =
                (min streamAt ((children.length : Int) - 1)).toNat := by
              rw [idxOf_removeItem children r item hnd hrmem hrne, hir,
                if_neg (by omega)]
              omega
            rw [hidx]
  refine ⟨hmain, ?_, ?_⟩
  · rw [hmain]
    exact get?_listInsertAt _ _ _ hminle
  · rw [hmain]
    exact removeItem_listInsertAt _ _ _ (not_mem_removeItem_self _ _)

theorem streamReorder_spec_witness :
    (optimizedStreamReorder [0, 1, 2, 3] 3 1 true).1 = [0, 3, 1, 2] := by
  have h := (streamReorder_spec [0, 1, 2, 3] 3 1 (by decide) (by decide) (by decide)).1
  exact h.trans (by decide)
